import Mathlib

/-!
Shallow embedding of the certificate PDF splitter (src/PDF_MAIN_APP.py).

Strings are modelled as `List Char`.  Python's `None`-or-`str` values are
modelled as `Option (List Char)`.  Python's `\s` (whitespace class) is
modelled as the six ASCII whitespace characters; `[A-Za-z]`, upper, lower
and digit classes are the ASCII ones, matching `Char.isAlpha` etc.
-/

namespace PDFSplit

/-- ASCII whitespace, the model of Python's `\s` and of `str.strip()`. -/
def isWS (c : Char) : Bool :=
  c = ' ' || c = '\t' || c = '\n' || c = '\r' || c = '\x0b' || c = '\x0c'

/-- The character class `[A-Za-z\s\.\-]` of the method-1 regex. -/
def isClassChar (c : Char) : Bool :=
  c.isAlpha || isWS c || c = '.' || c = '-'

/-- Word characters for Python's `\b` boundary: `[A-Za-z0-9_]`. -/
def isWordChar (c : Char) : Bool :=
  c.isAlphanum || c = '_'

/-- `str.strip()`: drop whitespace from both ends. -/
def stripWS (l : List Char) : List Char :=
  ((l.dropWhile isWS).reverse.dropWhile isWS).reverse

/-- Scanner for `re.sub(r'\s+', ' ', ·)`: the flag records whether the
previous character was whitespace (we are inside a run whose single space
was already emitted). -/
def subWSaux : Bool → List Char → List Char
  | _, [] => []
  | inRun, c :: rest =>
    if isWS c then
      if inRun then subWSaux true rest else ' ' :: subWSaux true rest
    else c :: subWSaux false rest

/-- `re.sub(r'\s+', ' ', ·)`: replace each maximal whitespace run by one space. -/
def subWSruns (l : List Char) : List Char := subWSaux false l

/-- Scanner for `str.split()`: `acc` is the current token, reversed. -/
def splitWSaux : List Char → List Char → List (List Char)
  | acc, [] => if acc.isEmpty then [] else [acc.reverse]
  | acc, c :: rest =>
    if isWS c then
      if acc.isEmpty then splitWSaux [] rest else acc.reverse :: splitWSaux [] rest
    else splitWSaux (c :: acc) rest

/-- `str.split()` with no argument: whitespace-separated tokens, no empties. -/
def splitWS (l : List Char) : List (List Char) := splitWSaux [] l

/-- Drop an exact literal from the front: `some` of the remainder when the
literal is a prefix, else `none`. -/
def stripPrefixCL : List Char → List Char → Option (List Char)
  | [], s => some s
  | _ :: _, [] => none
  | p :: ps, c :: cs => if c = p then stripPrefixCL ps cs else none

/-- `pat in s` (Python substring test). -/
def containsSub (pat : List Char) : List Char → Bool
  | [] => pat.isEmpty
  | c :: rest => pat.isPrefixOf (c :: rest) || containsSub pat rest

/-- Case-insensitive literal prefix test (ASCII lowering), the model of a
`re.IGNORECASE` literal pattern match at the current position. -/
def isCIPrefix : List Char → List Char → Bool
  | [], _ => true
  | _ :: _, [] => false
  | p :: ps, c :: cs => (c.toLower = p.toLower) && isCIPrefix ps cs

/-- `re.sub(pat, '', ·, flags=re.IGNORECASE)` for a literal nonempty `pat`:
delete every (leftmost, non-overlapping) case-insensitive occurrence.  The
fuel argument (instantiated with the text's length, which bounds the number
of steps) only makes the recursion structural. -/
def removeAllCIF (pat : List Char) : Nat → List Char → List Char
  | 0, l => l
  | _ + 1, [] => []
  | fuel + 1, c :: rest =>
    if isCIPrefix pat (c :: rest) then removeAllCIF pat fuel (rest.drop (pat.length - 1))
    else c :: removeAllCIF pat fuel rest

def removeAllCI (pat : List Char) (l : List Char) : List Char :=
  removeAllCIF pat l.length l

def thisW : List Char := "This".toList

/-- `str.replace("This", '')` (case-sensitive, all occurrences, left to
right), used by the driver at line 256. -/
def removeThisAll : List Char → List Char
  | [] => []
  | 'T' :: 'h' :: 'i' :: 's' :: rest => removeThisAll rest
  | c :: rest => c :: removeThisAll rest

/-- Scanner for `re.sub(r'\bThis\b', '', ·)`.  The flag records whether the
previous character of the original text is a word character (so whether `\b`
holds before the current position; `\b` holds after the match iff the next
character is absent or not a word character).  The fuel argument
(instantiated with the text's length, which bounds the number of steps) only
makes the recursion structural. -/
def removeThisF : Nat → Bool → List Char → List Char
  | 0, _, l => l
  | _ + 1, _, [] => []
  | fuel + 1, prevW, c :: rest =>
    if !prevW && thisW.isPrefixOf (c :: rest) &&
        (match rest.drop 3 with | [] => true | d :: _ => !isWordChar d) then
      removeThisF fuel true (rest.drop 3)
    else c :: removeThisF fuel (isWordChar c) rest

/-- `re.sub(r'\bThis\b', '', ·)`. -/
def removeWordThis (l : List Char) : List Char := removeThisF l.length false l

/-- `' '.join(parts)`. -/
def joinSpace : List (List Char) → List Char
  | [] => []
  | [p] => p
  | p :: q :: ps => p ++ ' ' :: joinSpace (q :: ps)

def lowerL (l : List Char) : List Char := l.map Char.toLower

/-- `.replace('.', '')` on a token. -/
def removeDots (l : List Char) : List Char := l.filter (fun c => !(c = '.'))

/-! ## The name formatter (`format_name_for_filename`, lines 128-206) -/

/-- The character class removed at line 143: `[\n\r\t\\/:*?"<>|]`. -/
def badChars : List Char := ['\n', '\r', '\t', '\\', '/', ':', '*', '?', '"', '<', '>', '|']

/-- A character outside the removed class. -/
def goodChar (c : Char) : Bool := !(badChars.contains c)

/-- Line 143: `re.sub(r'[\n\r\t\\/:*?"<>|]', '', name)`. -/
def removeProblemChars (l : List Char) : List Char :=
  l.filter goodChar

def completionW : List Char := "COMPLETION".toList
def certificateW : List Char := "CERTIFICATE".toList
def unknownW : List Char := "unknown".toList

/-- Lines 143-153: remove problematic characters, the words COMPLETION and
CERTIFICATE (case-insensitively) and the standalone word This, then collapse
whitespace runs and strip. -/
def cleanNamePipeline (n : List Char) : List Char :=
  stripWS (subWSruns (removeWordThis
    (removeAllCI certificateW (removeAllCI completionW (removeProblemChars n)))))

/-- Line 162: the name-prefix list. -/
def name_prefixes : List (List Char) :=
  ["de".toList, "del".toList, "dela".toList, "della".toList, "des".toList,
   "di".toList, "du".toList, "el".toList, "la".toList, "le".toList,
   "van".toList, "von".toList, "der".toList, "den".toList, "das".toList,
   "dos".toList, "da".toList, "do".toList, "san".toList, "st".toList,
   "sta.".toList, "sto.".toList, "sta".toList, "sto".toList]

/-- Line 171: `['sta.', 'sto.', 'sta', 'sto']`. -/
def staList : List (List Char) :=
  ["sta.".toList, "sto.".toList, "sta".toList, "sto".toList]

/-- Line 186: `['sta', 'sto']`. -/
def staStoBare : List (List Char) := ["sta".toList, "sto".toList]

/-- `format_name_for_filename` (lines 128-206).  A Python `None` argument is
`none`; `if not name` is true for `None` and for the empty string. -/
def format_name_for_filename : Option (List Char) → List Char
  | none => unknownW
  | some n =>
    if n = [] then unknownW
    else
      let clean_name := cleanNamePipeline n
      let name_parts := splitWS clean_name
      if name_parts.length < 2 then clean_name
      else
        let first_name := name_parts.getD 0 []
        if 3 ≤ name_parts.length ∧ lowerL (name_parts.getD 1 []) ∈ staList then
          (name_parts.getD 1 []) ++ ' ' :: joinSpace (name_parts.drop 2)
            ++ ',' :: ' ' :: first_name
        else
          let last_name :=
            if 3 ≤ name_parts.length then
              if removeDots (lowerL (name_parts.getD (name_parts.length - 2) [])) ∈ staStoBare then
                name_parts.getD (name_parts.length - 2) [] ++ ' ' ::
                  name_parts.getD (name_parts.length - 1) []
              else if lowerL (name_parts.getD (name_parts.length - 2) []) ∈ name_prefixes then
                name_parts.getD (name_parts.length - 2) [] ++ ' ' ::
                  name_parts.getD (name_parts.length - 1) []
              else if 4 ≤ name_parts.length ∧
                  lowerL (name_parts.getD (name_parts.length - 3) []) ∈ name_prefixes ∧
                  lowerL (name_parts.getD (name_parts.length - 2) []) ∈ name_prefixes then
                name_parts.getD (name_parts.length - 3) [] ++ ' ' ::
                  name_parts.getD (name_parts.length - 2) [] ++ ' ' ::
                    name_parts.getD (name_parts.length - 1) []
              else name_parts.getD (name_parts.length - 1) []
            else name_parts.getD (name_parts.length - 1) []
          last_name ++ ',' :: ' ' :: first_name

/-! ## The name extractor (`extract_name_from_text`, lines 29-126)

Method 1 embeds `re.search(r'CERTIFICATE OF COMPLETION\s+([A-Za-z\s\.\-]+)`
`(?=\s+This certificate)', text, re.DOTALL)` with its backtracking order:
start positions left to right; at a position, the whitespace run `\s+`
longest first, then the captured class run longest first, then the
lookahead. -/

def certAnchor : List Char := "CERTIFICATE OF COMPLETION".toList
def thisAnchor : List Char := "This certificate".toList

def wsRunLen (l : List Char) : Nat := (l.takeWhile isWS).length
def classRunLen (l : List Char) : Nat := (l.takeWhile isClassChar).length

/-- `(?=\s+lit)`: one or more whitespace characters, then the literal. -/
def wsThenLit (lit : List Char) : List Char → Bool
  | [] => false
  | c :: rest => isWS c && (lit.isPrefixOf rest || wsThenLit lit rest)

/-- Greedy `([A-Za-z\s\.\-]+)(?=\s+This certificate)` at `u`: capture lengths
`b, b-1, ..., 1`, first one whose lookahead holds. -/
def tryCaptureFrom (u : List Char) : Nat → Option (List Char)
  | 0 => none
  | b + 1 =>
    if wsThenLit thisAnchor (u.drop (b + 1)) then some (u.take (b + 1))
    else tryCaptureFrom u b

def tryCapture (u : List Char) : Option (List Char) :=
  tryCaptureFrom u (classRunLen u)

/-- Greedy `\s+` then the capture: whitespace lengths `a, a-1, ..., 1`. -/
def tryWsFrom (s : List Char) : Nat → Option (List Char)
  | 0 => none
  | a + 1 =>
    match tryCapture (s.drop (a + 1)) with
    | some cap => some cap
    | none => tryWsFrom s a

def tryMatch (s : List Char) : Option (List Char) :=
  tryWsFrom s (wsRunLen s)

/-- `re.search` of the method-1 pattern: the raw `group(1)` at the leftmost
start position where the whole pattern matches. -/
def searchMethod1 : List Char → Option (List Char)
  | [] => none
  | c :: rest =>
    match stripPrefixCL certAnchor (c :: rest) with
    | some s =>
      match tryMatch s with
      | some cap => some cap
      | none => searchMethod1 rest
    | none => searchMethod1 rest

def titleStrs : List (List Char) :=
  ["Chief Operating".toList, "Operations Manager".toList]

/-- Method 1 (lines 49-57): regex capture, `strip`, whitespace collapse and
`strip`, then the title check of lines 55-57, which assigns `name = name`
on its one branch and so never changes the result. -/
def method1 (text : List Char) : Option (List Char) :=
  match searchMethod1 text with
  | none => none
  | some cap =>
    let name := stripWS cap
    let name := stripWS (subWSruns name)
    let name := if !(titleStrs.any (fun t => containsSub t name)) then name else name
    some name

/-! Method 2 (lines 60-78): line-window scan. -/

/-- `text.split('\n')`. -/
def splitNL : List Char → List (List Char)
  | [] => [[]]
  | c :: rest =>
    let r := splitNL rest
    if c = '\n' then [] :: r
    else
      match r with
      | [] => [[c]]
      | h :: t => (c :: h) :: t

/-- The loop of lines 65-70: walk the lines with index `i`; remember the last
line containing CERTIFICATE OF COMPLETION; stop at the first line containing
"This certificate".  `-1` is the sentinel of the source. -/
def scanIndices : List (List Char) → Int → Int → Int × Int
  | [], _, ci => (ci, -1)
  | line :: rest, i, ci =>
    let ci2 := if containsSub certAnchor line then i else ci
    if containsSub thisAnchor line then (ci2, i)
    else scanIndices rest (i + 1) ci2

def chiefW : List Char := "Chief".toList
def officerW : List Char := "Officer".toList
def managerW : List Char := "Manager".toList

/-- Line 76: a stripped line qualifies when nonempty, not starting with
Chief, not ending with Officer and not containing Manager. -/
def goodCandidate (line : List Char) : Option (List Char) :=
  let candidate := stripWS line
  if candidate.isEmpty then none
  else if chiefW.isPrefixOf candidate then none
  else if officerW.isSuffixOf candidate then none
  else if containsSub managerW candidate then none
  else some candidate

def findBetween : List (List Char) → Option (List Char)
  | [] => none
  | l :: rest =>
    match goodCandidate l with
    | some c => some c
    | none => findBetween rest

def method2 (text : List Char) : Option (List Char) :=
  let lines := splitNL text
  let p := scanIndices lines 0 (-1)
  if p.1 ≠ -1 ∧ p.2 ≠ -1 ∧ p.1 < p.2 then
    findBetween ((lines.drop (p.1 + 1).toNat).take (p.2 - p.1 - 1).toNat)
  else none

/-! Method 3 (lines 80-106): two ordered patterns, scanned with `finditer`
semantics (non-overlapping, left to right), each candidate filtered by the
title substrings and a +-20-character context window. -/

def lowerRunLen (l : List Char) : Nat := (l.takeWhile Char.isLower).length
def upperRunLen (l : List Char) : Nat := (l.takeWhile Char.isUpper).length
def staDot : List Char := "Sta.".toList
def stoDot : List Char := "Sto.".toList

/-- `([A-Z][a-z]+)\s+(Sta\.|Sto\.)\s+([A-Z][a-z]+)` at the given position;
returns the length of the full match.  Every quantifier here is followed by a
disjoint character class, so greedy matching is maximal-munch. -/
def tryPatternA (s : List Char) : Option Nat :=
  match s with
  | [] => none
  | c :: rest =>
    if c.isUpper then
      let k1 := lowerRunLen rest
      if k1 = 0 then none
      else
        let s1 := rest.drop k1
        let w1 := wsRunLen s1
        if w1 = 0 then none
        else
          let s2 := s1.drop w1
          if staDot.isPrefixOf s2 || stoDot.isPrefixOf s2 then
            let s3 := s2.drop 4
            let w2 := wsRunLen s3
            if w2 = 0 then none
            else
              match s3.drop w2 with
              | [] => none
              | d :: rest4 =>
                if d.isUpper then
                  let k2 := lowerRunLen rest4
                  if k2 = 0 then none else some (1 + k1 + w1 + 4 + w2 + 1 + k2)
                else none
          else none
    else none

/-- `[A-Z][a-z]+(?:\s+[A-Z][a-z]+)?`, the mandatory tail of the second
group of pattern (b); the optional part is tried greedily first. -/
def g2core (v : List Char) : Option Nat :=
  match v with
  | [] => none
  | c :: rest =>
    if c.isUpper then
      let k := lowerRunLen rest
      if k = 0 then none
      else
        let base := 1 + k
        let v2 := rest.drop k
        let w := wsRunLen v2
        if w = 0 then some base
        else
          match v2.drop w with
          | [] => some base
          | d :: rest2 =>
            if d.isUpper then
              let k2 := lowerRunLen rest2
              if k2 = 0 then some base else some (base + w + 1 + k2)
            else some base
    else none

/-- `(?:[a-z]{1,3}\s+)?` then the core: since `{1,3}` must be followed by
whitespace, only a full lowercase run of length 1-3 can be taken; on failure
fall back to the absent option. -/
def g2opt2 (v : List Char) : Option Nat :=
  let l := lowerRunLen v
  let present : Option Nat :=
    if 1 ≤ l ∧ l ≤ 3 then
      let w := wsRunLen (v.drop l)
      if 1 ≤ w then (g2core (v.drop (l + w))).map (fun n => l + w + n) else none
    else none
  match present with
  | some n => some n
  | none => g2core v

/-- Group 2 of pattern (b):
`((?:[A-Za-z]\.?\s+)?(?:[a-z]{1,3}\s+)?[A-Z][a-z]+(?:\s+[A-Z][a-z]+)?)`.
The leading optional is a letter, a greedy optional period, then whitespace;
on failure of the rest the absent option is tried. -/
def g2group (v : List Char) : Option Nat :=
  let opt1 : Option Nat :=
    match v with
    | [] => none
    | a :: rest =>
      if a.isAlpha then
        match rest with
        | '.' :: rest2 =>
          let w := wsRunLen rest2
          if 1 ≤ w then some (2 + w) else none
        | _ =>
          let w := wsRunLen rest
          if 1 ≤ w then some (1 + w) else none
      else none
  match opt1 with
  | some n1 =>
    match g2opt2 (v.drop n1) with
    | some n2 => some (n1 + n2)
    | none => g2opt2 v
  | none => g2opt2 v

/-- `([A-Z][a-z]+|[A-Z]{2,})\s+<group2>` at the given position.  The first
alternative applies exactly when an uppercase letter is followed by a
lowercase one, in which case the second cannot. -/
def tryPatternB (s : List Char) : Option Nat :=
  match s with
  | [] => none
  | c :: rest =>
    if c.isUpper then
      let k := lowerRunLen rest
      let g1 : Option Nat :=
        if 1 ≤ k then some (1 + k)
        else
          let u := upperRunLen (c :: rest)
          if 2 ≤ u then some u else none
      match g1 with
      | some n1 =>
        let w := wsRunLen (s.drop n1)
        if 1 ≤ w then (g2group (s.drop (n1 + w))).map (fun n2 => n1 + w + n2)
        else none
      | none => none
    else none

/-- `finditer` over `text` with the filtering loop of lines 91-103: at a
match, the stripped full match is the candidate; candidates containing a
title substring, or whose 20-character context window contains Officer or
Manager, are skipped and scanning resumes at the match end. -/
def finditerAcc (text : List Char) (pat : List Char → Option Nat) :
    Nat → Nat → Option (List Char)
  | _, 0 => none
  | i, fuel + 1 =>
    match pat (text.drop i) with
    | some len =>
      let candidate := stripWS ((text.drop i).take len)
      let ctx := (text.drop (i - 20)).take (i + len + 20 - (i - 20))
      if titleStrs.any (fun t => containsSub t candidate) then
        finditerAcc text pat (i + len) fuel
      else if containsSub officerW ctx || containsSub managerW ctx then
        finditerAcc text pat (i + len) fuel
      else some candidate
    | none => finditerAcc text pat (i + 1) fuel

def method3 (text : List Char) : Option (List Char) :=
  match finditerAcc text tryPatternA 0 (text.length + 1) with
  | some c => some c
  | none => finditerAcc text tryPatternB 0 (text.length + 1)

/-! Method 4 (lines 108-112):
`re.search(r'presented to\s+(.*?)\s+for successfully', text, re.DOTALL)`. -/

def presentedToW : List Char := "presented to".toList
def forSuccW : List Char := "for successfully".toList

/-- The lazy capture `(.*?)(?:\s+for successfully)`: the least capture length
whose continuation matches (`.` matches anything under DOTALL). -/
def lazyCap : List Char → Option Nat
  | [] => none
  | c :: rest =>
    if wsThenLit forSuccW (c :: rest) then some 0
    else (lazyCap rest).map (fun m => m + 1)

/-- Greedy `\s+` after "presented to": lengths `a, a-1, ..., 1`. -/
def m4wsLoop (s : List Char) : Nat → Option (List Char)
  | 0 => none
  | a + 1 =>
    match lazyCap (s.drop (a + 1)) with
    | some m => some ((s.drop (a + 1)).take m)
    | none => m4wsLoop s a

def method4 : List Char → Option (List Char)
  | [] => none
  | c :: rest =>
    match stripPrefixCL presentedToW (c :: rest) with
    | some s =>
      match m4wsLoop s (wsRunLen s) with
      | some cap => some (stripWS cap)
      | none => method4 rest
    | none => method4 rest

/-! Assembling the extractor. -/

/-- Python falsiness of the running `name` value: `None` or the empty
string. -/
def falsyOpt (nm : Option (List Char)) : Bool :=
  match nm with
  | none => true
  | some l => l.isEmpty

/-- Lines 114-124: the cleanup applied to a found (nonempty) name. -/
def finalCleanup (nm : List Char) : List Char :=
  stripWS (subWSruns (removeWordThis
    (removeAllCI certificateW (removeAllCI completionW nm))))

/-- `extract_name_from_text` (lines 29-126).  Python's `None` is `none`; a
method that matched with an empty result leaves `name` falsy, so later
methods still run, and an empty final `name` skips the cleanup. -/
def extract_name_from_text (text : List Char) : Option (List Char) :=
  let text := text.filter (fun c => !(c = '\x00'))
  if text.isEmpty then none
  else
    let name : Option (List Char) := method1 text
    let name := if falsyOpt name then
        (match method2 text with | some c => some c | none => name) else name
    let name := if falsyOpt name then
        (match method3 text with | some c => some c | none => name) else name
    let name := if falsyOpt name then
        (match method4 text with | some c => some c | none => name) else name
    match name with
    | none => none
    | some nm => if nm.isEmpty then some nm else some (finalCleanup nm)

/-- The per-page naming step of the driver (lines 250-274), up to the
formatted name used in the output filename: extract, the extra `This`
replacement of lines 255-257, then format, with the "unknown" fallback. -/
def pageFormattedName (text : List Char) : List Char :=
  let name := extract_name_from_text text
  let name :=
    match name with
    | none => none
    | some n =>
      if !n.isEmpty && containsSub thisW n then some (stripWS (removeThisAll n))
      else some n
  match name with
  | none => unknownW
  | some n => if n.isEmpty then unknownW else format_name_for_filename (some n)

/-! ## Grouping into folders (lines 302-332) -/

def pdfSuffix : List Char := ".pdf".toList

def digitRunLen (l : List Char) : Nat := (l.takeWhile Char.isDigit).length

/-- `re.match(r'\d+\s+(.*?)\.pdf$', pdf_file)` after the (maximal) digit run:
greedy `\s+` lengths `w, w-1, ..., 1`; the lazy capture is then forced by the
end anchor.  `$` is modelled as end of string and `.` as any character other
than a newline. -/
def groupNameMatchAux (s1 : List Char) : Nat → Option (List Char)
  | 0 => none
  | w + 1 =>
    let tail := s1.drop (w + 1)
    if 4 ≤ tail.length ∧ pdfSuffix.isSuffixOf tail ∧
        (tail.take (tail.length - 4)).all (fun c => !(c = '\n')) then
      some (tail.take (tail.length - 4))
    else groupNameMatchAux s1 w

def groupNameMatch (fname : List Char) : Option (List Char) :=
  let d := digitRunLen fname
  if d = 0 then none
  else
    let s1 := fname.drop d
    groupNameMatchAux s1 (wsRunLen s1)

/-- Lines 302-332 reduced to the copy operations they perform: for each
listed file ending (case-insensitively) in .pdf whose name matches the
numbering pattern and whose extracted formatted name is not "unknown"
(lowercased), one copy into folder `formatted_name` under destination name
`formatted_name ++ ".pdf"`. -/
def groupCopies : List (List Char) → List (List Char × List Char)
  | [] => []
  | f :: rest =>
    (if pdfSuffix.isSuffixOf (lowerL f) then
      match groupNameMatch f with
      | some g =>
        let formatted := stripWS g
        if lowerL formatted = unknownW then []
        else [(formatted, formatted ++ pdfSuffix)]
      | none => []
    else []) ++ groupCopies rest

/-- The folders that exist after grouping: the distinct folder names of the
copies (`created_folders`). -/
def foldersOf (files : List (List Char)) : List (List Char) :=
  ((groupCopies files).map Prod.fst).dedup

/-- The files a folder holds after grouping: each copy writes destination
`formatted_name ++ ".pdf"`, and a second copy to the same destination
overwrites the first, so the contents are the distinct destination names. -/
def folderContents (files : List (List Char)) (folder : List Char) : List (List Char) :=
  (((groupCopies files).filter (fun p => p.1 = folder)).map Prod.snd).dedup

/-- The whitespace tokens of the cleaned name inside
`format_name_for_filename` (line 156). -/
def nameTokens (n : List Char) : List (List Char) :=
  splitWS (cleanNamePipeline n)

/-! ## Claims about the formatter -/

/-- C1: the spec claims `format("John van der Wal") = "van der Wal, John"`
(rule (d): surname = last three tokens).  The code returns "der Wal, John":
the second-to-last token "der" is itself in the prefix list, so the
last-two-tokens branch (line 189) fires before the double-prefix branch
(line 193) ever could — contradicting the code's own comment
`Case 2: "John van der Wal" -> last_name = "van der Wal"` (line 180). -/
theorem C1_vanderWal_eval :
    format_name_for_filename (some "John van der Wal".toList) = "der Wal, John".toList ∧
    format_name_for_filename (some "John van der Wal".toList) ≠ "van der Wal, John".toList := by
  constructor
  · decide
  · decide

/-- C2 counterexample: an input that becomes empty only after the
boilerplate-stripping pass does NOT yield "unknown": the falsiness check of
line 139 runs before the stripping, and the fewer-than-2-tokens branch of
line 158 then returns the cleaned (empty) string. -/
theorem C2_cleansToEmpty_counterexample :
    format_name_for_filename (some "COMPLETION".toList) = [] ∧
    format_name_for_filename (some "COMPLETION".toList) ≠ unknownW := by
  constructor
  · decide
  · decide

/-- C2 (amended): format returns "unknown" exactly for a NotFound/None input
and for the empty string; an input that becomes empty only after the
boilerplate-stripping pass instead returns the empty cleaned string. -/
theorem C2_unknown_amended :
    format_name_for_filename none = unknownW ∧
    format_name_for_filename (some []) = unknownW ∧
    ∀ cs : List Char, cs ≠ [] → cleanNamePipeline cs = [] →
      format_name_for_filename (some cs) = [] := by
  refine ⟨rfl, rfl, fun cs hne hclean => ?_⟩
  simp only [format_name_for_filename]
  rw [if_neg hne, hclean]
  decide

/-- C2 witness for the amended theorem's general clause. -/
theorem C2_unknown_amended_witness :
    format_name_for_filename (some "COMPLETION".toList) = [] :=
  C2_unknown_amended.2.2 "COMPLETION".toList (by decide) (by decide)

/-- C5: with at least 3 tokens and a second token whose lowercase form is in
`['sta.', 'sto.', 'sta', 'sto']` (equivalently, lowercased with a trailing
period ignored, "sta" or "sto"), the formatter immediately returns
`token1 ++ " " ++ join(tokens[2:]) ++ ", " ++ token0` (lines 170-176),
short-circuiting every other surname rule. -/
theorem C5_staSto_short_circuit (n : List Char)
    (h3 : 3 ≤ (nameTokens n).length)
    (hsta : lowerL ((nameTokens n).getD 1 []) ∈ staList) :
    format_name_for_filename (some n) =
      (nameTokens n).getD 1 [] ++ ' ' :: joinSpace ((nameTokens n).drop 2)
        ++ ',' :: ' ' :: (nameTokens n).getD 0 [] := by
  unfold nameTokens at h3 hsta ⊢
  have hne : n ≠ [] := by
    intro h
    rw [h] at h3
    exact absurd h3 (by decide)
  simp only [format_name_for_filename]
  rw [if_neg hne]
  rw [if_neg (by omega), if_pos ⟨h3, hsta⟩]

/-- C5 witness: `format("Rafa Sta. Ana") = "Sta. Ana, Rafa"`. -/
theorem C5_staSto_witness :
    format_name_for_filename (some "Rafa Sta. Ana".toList) = "Sta. Ana, Rafa".toList := by
  have h := C5_staSto_short_circuit "Rafa Sta. Ana".toList (by decide) (by decide)
  exact h.trans (by decide)

/-- C6: with at least 3 tokens, when rule (a) (second token sta/sto) and rule
(b) (second-to-last token sta/sto after dropping periods) do not apply and
the lowercased second-to-last token is in the Name Prefix Set, the surname is
the last two tokens joined by a space (lines 189-191). -/
theorem C6_prefix_rule (n : List Char)
    (h3 : 3 ≤ (nameTokens n).length)
    (hnotA : lowerL ((nameTokens n).getD 1 []) ∉ staList)
    (hnotB : removeDots (lowerL ((nameTokens n).getD ((nameTokens n).length - 2) []))
      ∉ staStoBare)
    (hpre : lowerL ((nameTokens n).getD ((nameTokens n).length - 2) []) ∈ name_prefixes) :
    format_name_for_filename (some n) =
      (nameTokens n).getD ((nameTokens n).length - 2) [] ++ ' ' ::
        (nameTokens n).getD ((nameTokens n).length - 1) []
        ++ ',' :: ' ' :: (nameTokens n).getD 0 [] := by
  unfold nameTokens at h3 hnotA hnotB hpre ⊢
  have hne : n ≠ [] := by
    intro h
    rw [h] at h3
    exact absurd h3 (by decide)
  simp only [format_name_for_filename]
  rw [if_neg hne]
  rw [if_neg (by omega), if_neg (fun h => hnotA h.2), if_pos h3, if_neg hnotB, if_pos hpre]

/-- C6 witness: `format("Juan Dela Cruz") = "Dela Cruz, Juan"`. -/
theorem C6_prefix_witness :
    format_name_for_filename (some "Juan Dela Cruz".toList) = "Dela Cruz, Juan".toList := by
  have h := C6_prefix_rule "Juan Dela Cruz".toList (by decide) (by decide) (by decide) (by decide)
  exact h.trans (by decide)

/-! ## Claims about grouping -/

def groupExample : List (List Char) :=
  ["001 Cruz, Juan.pdf".toList, "004 Cruz, Juan.pdf".toList, "002 unknown.pdf".toList]

/-- C3 counterexample: grouping the spec's example produces the folder
"Cruz, Juan", but that folder holds ONE file, not two: both matching outputs
are copied to the same destination name "Cruz, Juan.pdf" (the numbering is
removed, line 327), so the second copy overwrites the first. -/
theorem C3_grouping_counterexample :
    folderContents groupExample "Cruz, Juan".toList = ["Cruz, Juan.pdf".toList] ∧
    (folderContents groupExample "Cruz, Juan".toList).length ≠ 2 := by
  constructor
  · decide
  · decide

/-- C3 (amended): grouping the example produces exactly one folder
"Cruz, Juan"; both files "001 Cruz, Juan.pdf" and "004 Cruz, Juan.pdf" are
copied into it (two copy operations), each under the destination name
"Cruz, Juan.pdf", so the folder ends up holding that single file; the
"unknown" output is excluded entirely. -/
theorem C3_grouping_amended :
    groupCopies groupExample =
      [("Cruz, Juan".toList, "Cruz, Juan.pdf".toList),
       ("Cruz, Juan".toList, "Cruz, Juan.pdf".toList)] ∧
    foldersOf groupExample = ["Cruz, Juan".toList] ∧
    folderContents groupExample "Cruz, Juan".toList = ["Cruz, Juan.pdf".toList] := by
  refine ⟨by decide, by decide, by decide⟩

/-! ## Claims about the extractor -/

/-- C4: strategy 1's job-title rejection is non-enforcing.  Whenever the
anchor-phrase regex matches, method 1 keeps the collapsed capture even when
it contains "Chief Operating" or "Operations Manager": the check of lines
55-57 only ever executes `name = name`. -/
theorem C4_title_check_nonenforcing (text cap : List Char)
    (hmatch : searchMethod1 text = some cap)
    (htitle : titleStrs.any
      (fun t => containsSub t (stripWS (subWSruns (stripWS cap)))) = true) :
    method1 text = some (stripWS (subWSruns (stripWS cap))) := by
  unfold method1
  rw [hmatch]
  simp only [ite_self]

/-- C4 witness: a capture that contains "Chief Operating" is kept. -/
theorem C4_title_check_witness :
    method1 "CERTIFICATE OF COMPLETION Chief Operating Officer This certificate".toList =
      some "Chief Operating Officer".toList := by
  have h := C4_title_check_nonenforcing
    "CERTIFICATE OF COMPLETION Chief Operating Officer This certificate".toList
    "Chief Operating Officer".toList (by decide) (by decide)
  exact h.trans (by decide)

/-- C9: per-page extraction and formatting is a pure function of that page's
text: in two batches that agree on page `i`, the formatted names for page `i`
agree, whatever the other pages are. -/
theorem C9_page_independence (texts1 texts2 : List (List Char)) (i : Nat)
    (h1 : i < texts1.length) (h2 : i < texts2.length)
    (heq : texts1.get ⟨i, h1⟩ = texts2.get ⟨i, h2⟩) :
    (texts1.map (fun t => format_name_for_filename (extract_name_from_text t))).get
        ⟨i, by simpa using h1⟩ =
      (texts2.map (fun t => format_name_for_filename (extract_name_from_text t))).get
        ⟨i, by simpa using h2⟩ := by
  rw [List.get_map, List.get_map, heq]

/-- C9 witness: two 2-page batches agreeing on page 0 but not on page 1
produce the same formatted name for page 0. -/
theorem C9_page_independence_witness :
    ([("CERTIFICATE OF COMPLETION Juan Cruz This certificate").toList, "a".toList].map
        (fun t => format_name_for_filename (extract_name_from_text t))).get
        ⟨0, by decide⟩ =
      ([("CERTIFICATE OF COMPLETION Juan Cruz This certificate").toList, "b".toList].map
        (fun t => format_name_for_filename (extract_name_from_text t))).get
        ⟨0, by decide⟩ :=
  C9_page_independence _ _ 0 (by decide) (by decide) rfl

/-! ## Claim C7: strategy 2 -/

/-- Index of the first line containing `pat`. -/
def findIdxSub (pat : List Char) : List (List Char) → Option Nat
  | [] => none
  | l :: rest => if containsSub pat l then some 0 else (findIdxSub pat rest).map (· + 1)

/-- Index of the last line containing `pat`. -/
def lastIdxSub (pat : List Char) : List (List Char) → Option Nat
  | [] => none
  | l :: rest =>
    match lastIdxSub pat rest with
    | some j => some (j + 1)
    | none => if containsSub pat l then some 0 else none

/-- Strategy 2 as the claim words it: the line index of CERTIFICATE OF
COMPLETION, then the first SUBSEQUENT line index containing "This
certificate"; if both found in order, the first qualifying line strictly
between them. -/
def method2Claim (text : List Char) : Option (List Char) :=
  let lines := splitNL text
  match findIdxSub certAnchor lines with
  | none => none
  | some c =>
    match (findIdxSub thisAnchor (lines.drop (c + 1))).map (fun j => c + 1 + j) with
    | none => none
    | some t =>
      if c < t then findBetween ((lines.drop (c + 1)).take (t - c - 1)) else none

/-- Strategy 2 as the code has it: the loop breaks at the FIRST line
containing "This certificate" anywhere, and the anchor index is the last
line containing CERTIFICATE OF COMPLETION up to and including that line
(over all lines if "This certificate" never occurs, in which case the guard
fails anyway). -/
def method2Amended (text : List Char) : Option (List Char) :=
  let lines := splitNL text
  match findIdxSub thisAnchor lines with
  | none => none
  | some t =>
    match lastIdxSub certAnchor (lines.take (t + 1)) with
    | none => none
    | some c =>
      if c < t then findBetween ((lines.drop (c + 1)).take (t - c - 1)) else none

/-- The loop of lines 65-70, characterised by `findIdxSub`/`lastIdxSub`. -/
theorem scanIndices_spec (lines : List (List Char)) (i ci : Int) :
    scanIndices lines i ci =
      match findIdxSub thisAnchor lines with
      | some t =>
        ((match lastIdxSub certAnchor (lines.take (t + 1)) with
          | some c => i + c
          | none => ci), i + t)
      | none =>
        ((match lastIdxSub certAnchor lines with
          | some c => i + c
          | none => ci), -1) := by
  induction lines generalizing i ci with
  | nil => simp [scanIndices, findIdxSub, lastIdxSub]
  | cons line rest ih =>
    by_cases hthis : containsSub thisAnchor line = true
    · by_cases hcert : containsSub certAnchor line = true
      · simp [scanIndices, findIdxSub, lastIdxSub, hthis, hcert]
      · simp [scanIndices, findIdxSub, lastIdxSub, hthis, Bool.of_not_eq_true hcert]
    · have hthis' : containsSub thisAnchor line = false := Bool.of_not_eq_true hthis
      rw [scanIndices]
      simp only [hthis', Bool.false_eq_true, if_false]
      rw [ih]
      cases hfind : findIdxSub thisAnchor rest with
      | none =>
        simp only [findIdxSub, hthis', Bool.false_eq_true, if_false, hfind,
          Option.map_none']
        cases hlast : lastIdxSub certAnchor rest with
        | none =>
          by_cases hcert : containsSub certAnchor line = true
          · simp [lastIdxSub, hlast, hcert]
          · simp [lastIdxSub, hlast, Bool.of_not_eq_true hcert]
        | some j => simp [lastIdxSub, hlast, Prod.ext_iff]; omega
      | some t =>
        simp only [findIdxSub, hthis', Bool.false_eq_true, if_false, hfind,
          Option.map_some']
        have htake : (line :: rest).take (t + 1 + 1) = line :: rest.take (t + 1) := rfl
        rw [htake]
        cases hlast : lastIdxSub certAnchor (rest.take (t + 1)) with
        | none =>
          by_cases hcert : containsSub certAnchor line = true
          · simp [lastIdxSub, hlast, hcert, Prod.ext_iff]; omega
          · simp [lastIdxSub, hlast, Bool.of_not_eq_true hcert, Prod.ext_iff]; omega
        | some j => simp [lastIdxSub, hlast, Prod.ext_iff]; omega

/-- C7 counterexample: a text on which strategy 1 fails (the digit in
"Juan2" is outside the method-1 regex's character class, so the anchor-phrase
search finds no match) and where "This certificate" occurs on a line before
the anchor line and again after it.  The claim's reading of strategy 2
returns "Juan2 Cruz" (the anchor is line 1, the first subsequent
"This certificate" line is index 3), but the code's loop breaks at line 0,
leaving the anchor index -1, so strategy 2 yields nothing. -/
theorem C7_line_scan_counterexample :
    method1
      "This certificate x\nCERTIFICATE OF COMPLETION\nJuan2 Cruz\nThis certificate y".toList
      = none ∧
    method2Claim
      "This certificate x\nCERTIFICATE OF COMPLETION\nJuan2 Cruz\nThis certificate y".toList
      = some "Juan2 Cruz".toList ∧
    method2
      "This certificate x\nCERTIFICATE OF COMPLETION\nJuan2 Cruz\nThis certificate y".toList
      = none := by
  refine ⟨by decide, by decide, by decide⟩

/-- C7 (amended): strategy 2 finds the FIRST line containing "This
certificate" anywhere in the text and the LAST line containing CERTIFICATE
OF COMPLETION not after it; if both exist with the former strictly after the
latter, it returns the first non-empty line strictly between them that does
not start with "Chief", does not end with "Officer" and does not contain
"Manager"; otherwise it yields nothing. -/
theorem C7_line_scan_amended (text : List Char) :
    method2 text = method2Amended text := by
  simp only [method2, method2Amended]
  rw [scanIndices_spec]
  cases hfind : findIdxSub thisAnchor (splitNL text) with
  | none =>
    simp only [hfind]
    cases hlast : lastIdxSub certAnchor (splitNL text) <;> simp [hlast]
  | some t =>
    simp only [hfind]
    cases hlast : lastIdxSub certAnchor ((splitNL text).take (t + 1)) with
    | none => simp [hlast]
    | some c =>
      by_cases hct : c < t
      · have h2 : ((c : Int) + 1).toNat = c + 1 := by omega
        have h3 : ((t : Int) - (c : Int) - 1).toNat = t - c - 1 := by omega
        have hlt : ((c : Int)) < (t : Int) := by exact_mod_cast hct
        have hne1 : ((c : Int)) ≠ -1 := by omega
        have hne2 : ((t : Int)) ≠ -1 := by omega
        simp [hlast, hct, h2, h3, hlt, hne1, hne2]
      · have hlt : ¬((c : Int)) < (t : Int) := by exact_mod_cast hct
        simp [hlast, hct, hlt]

/-! ## Claim C10: no problematic character survives formatting -/

theorem mem_stripWS {c : Char} {l : List Char} (h : c ∈ stripWS l) : c ∈ l := by
  unfold stripWS at h
  rw [List.mem_reverse] at h
  have h1 := (List.dropWhile_sublist _).subset h
  rw [List.mem_reverse] at h1
  exact (List.dropWhile_sublist _).subset h1

theorem mem_subWSaux {c : Char} (b : Bool) (l : List Char) (h : c ∈ subWSaux b l) :
    c = ' ' ∨ c ∈ l := by
  revert h
  induction b, l using subWSaux.induct with
  | case1 x => intro h; simp [subWSaux] at h
  | case2 a rest hws ih =>
    intro h
    simp only [subWSaux, hws, if_pos, if_true] at h
    rcases ih h with h2 | h2
    · exact Or.inl h2
    · exact Or.inr (List.mem_cons_of_mem _ h2)
  | case3 inRun a rest hws hb ih =>
    intro h
    have hb' : inRun = false := by
      cases inRun
      · rfl
      · exact absurd rfl hb
    subst hb'
    simp only [subWSaux, hws, if_true, if_false, Bool.false_eq_true] at h
    rcases List.mem_cons.mp h with rfl | h2
    · exact Or.inl rfl
    · rcases ih h2 with h3 | h3
      · exact Or.inl h3
      · exact Or.inr (List.mem_cons_of_mem _ h3)
  | case4 inRun a rest hws ih =>
    intro h
    have hws' : isWS a = false := Bool.of_not_eq_true hws
    simp only [subWSaux, hws', Bool.false_eq_true, if_false] at h
    rcases List.mem_cons.mp h with rfl | h2
    · exact Or.inr (List.mem_cons_self _ _)
    · rcases ih h2 with h3 | h3
      · exact Or.inl h3
      · exact Or.inr (List.mem_cons_of_mem _ h3)

theorem mem_removeAllCIF {pat : List Char} {c : Char} :
    ∀ (fuel : Nat) (l : List Char), c ∈ removeAllCIF pat fuel l → c ∈ l := by
  intro fuel
  induction fuel with
  | zero => intro l h; simpa [removeAllCIF] using h
  | succ n ih =>
    intro l h
    cases l with
    | nil => simpa [removeAllCIF] using h
    | cons a rest =>
      rw [removeAllCIF] at h
      split_ifs at h with h1
      · exact List.mem_cons_of_mem _ (List.mem_of_mem_drop (ih _ h))
      · rcases List.mem_cons.mp h with rfl | h2
        · exact List.mem_cons_self _ _
        · exact List.mem_cons_of_mem _ (ih _ h2)

theorem mem_removeAllCI {pat c : List Char} {ch : Char} (h : ch ∈ removeAllCI pat c) :
    ch ∈ c :=
  mem_removeAllCIF _ _ h

theorem mem_removeThisF {c : Char} :
    ∀ (fuel : Nat) (b : Bool) (l : List Char), c ∈ removeThisF fuel b l → c ∈ l := by
  intro fuel
  induction fuel with
  | zero => intro b l h; simpa [removeThisF] using h
  | succ n ih =>
    intro b l h
    cases l with
    | nil => simpa [removeThisF] using h
    | cons a rest =>
      rw [removeThisF] at h
      split_ifs at h with h1
      · exact List.mem_cons_of_mem _ (List.mem_of_mem_drop (ih _ _ h))
      · rcases List.mem_cons.mp h with rfl | h2
        · exact List.mem_cons_self _ _
        · exact List.mem_cons_of_mem _ (ih _ _ h2)

theorem mem_splitWSaux {c : Char} :
    ∀ (acc l : List Char) (p : List Char), p ∈ splitWSaux acc l → c ∈ p →
      c ∈ acc ∨ c ∈ l := by
  intro acc l
  induction acc, l using splitWSaux.induct with
  | case1 acc hacc =>
    intro p hp hc
    simp [splitWSaux, hacc] at hp
  | case2 acc hacc =>
    intro p hp hc
    simp only [splitWSaux, hacc, Bool.false_eq_true, if_false, List.mem_singleton] at hp
    subst hp
    exact Or.inl (List.mem_reverse.mp hc)
  | case3 acc a rest hws hacc ih =>
    intro p hp hc
    simp only [splitWSaux, hws, hacc, if_true] at hp
    rcases ih p hp hc with h2 | h2
    · simp at h2
    · exact Or.inr (List.mem_cons_of_mem _ h2)
  | case4 acc a rest hws hacc ih =>
    intro p hp hc
    simp only [splitWSaux, hws, hacc, Bool.false_eq_true, if_true, if_false,
      List.mem_cons] at hp
    rcases hp with rfl | hp
    · exact Or.inl (List.mem_reverse.mp hc)
    · rcases ih p hp hc with h2 | h2
      · simp at h2
      · exact Or.inr (List.mem_cons_of_mem _ h2)
  | case5 acc a rest hws ih =>
    intro p hp hc
    have hws' : isWS a = false := Bool.of_not_eq_true hws
    simp only [splitWSaux, hws', Bool.false_eq_true, if_false] at hp
    rcases ih p hp hc with h2 | h2
    · rcases List.mem_cons.mp h2 with rfl | h3
      · exact Or.inr (List.mem_cons_self _ _)
      · exact Or.inl h3
    · exact Or.inr (List.mem_cons_of_mem _ h2)

theorem mem_joinSpace {c : Char} :
    ∀ (ps : List (List Char)), c ∈ joinSpace ps → c = ' ' ∨ ∃ p, p ∈ ps ∧ c ∈ p := by
  intro ps
  induction ps using joinSpace.induct with
  | case1 => intro h; simp [joinSpace] at h
  | case2 p => intro h; exact Or.inr ⟨p, List.mem_singleton_self _, h⟩
  | case3 p q ps ih =>
    intro h
    rw [joinSpace] at h
    rcases List.mem_append.mp h with h2 | h2
    · exact Or.inr ⟨p, List.mem_cons_self _ _, h2⟩
    · rcases List.mem_cons.mp h2 with rfl | h3
      · exact Or.inl rfl
      · rcases ih h3 with h4 | ⟨p2, hp2, hc2⟩
        · exact Or.inl h4
        · exact Or.inr ⟨p2, List.mem_cons_of_mem _ hp2, hc2⟩

/-- Every character of the cleaned name is outside the removed class: the
removal happens first (line 143) and the later passes only delete characters
or insert spaces. -/
theorem good_clean (n : List Char) : ∀ c ∈ cleanNamePipeline n, goodChar c = true := by
  intro c h
  unfold cleanNamePipeline subWSruns removeWordThis at h
  have h1 := mem_stripWS h
  rcases mem_subWSaux _ _ h1 with rfl | h2
  · decide
  · have h3 := mem_removeAllCI (mem_removeAllCI (mem_removeThisF _ _ _ h2))
    rw [removeProblemChars, List.mem_filter] at h3
    exact h3.2

theorem good_parts (n : List Char) (p : List Char)
    (hp : p ∈ splitWS (cleanNamePipeline n)) : ∀ c ∈ p, goodChar c = true := by
  intro c hc
  rcases mem_splitWSaux _ _ p hp hc with h | h
  · simp at h
  · exact good_clean n c h

theorem good_token (n : List Char) (i : Nat) :
    ∀ c ∈ (splitWS (cleanNamePipeline n)).getD i [], goodChar c = true := by
  intro c h
  by_cases hi : i < (splitWS (cleanNamePipeline n)).length
  · rw [List.getD_eq_getElem _ _ hi] at h
    exact good_parts n _ (List.getElem_mem hi) c h
  · rw [List.getD_eq_default _ _ (by omega)] at h
    simp at h

theorem good_join (n : List Char) (k : Nat) :
    ∀ c ∈ joinSpace ((splitWS (cleanNamePipeline n)).drop k), goodChar c = true := by
  intro c h
  rcases mem_joinSpace _ h with rfl | ⟨p, hp, hc⟩
  · decide
  · exact good_parts n p (List.mem_of_mem_drop hp) c hc

theorem good_append {x y : List Char}
    (hx : ∀ c ∈ x, goodChar c = true) (hy : ∀ c ∈ y, goodChar c = true) :
    ∀ c ∈ x ++ y, goodChar c = true := by
  intro c hc
  rcases List.mem_append.mp hc with h | h
  · exact hx c h
  · exact hy c h

theorem good_cons {a : Char} {y : List Char}
    (ha : goodChar a = true) (hy : ∀ c ∈ y, goodChar c = true) :
    ∀ c ∈ a :: y, goodChar c = true := by
  intro c hc
  rcases List.mem_cons.mp hc with rfl | h
  · exact ha
  · exact hy c h

theorem good_unknown : ∀ c ∈ unknownW, goodChar c = true := by decide

theorem goodChar_space : goodChar ' ' = true := rfl

theorem goodChar_comma : goodChar ',' = true := rfl

/-- C10: for every input, the output of `format_name_for_filename` contains
none of backslash, slash, colon, asterisk, question mark, double quote,
less-than, greater-than, pipe, newline, carriage return or tab: line 143
deletes exactly this set before tokenising, and every branch of the result
is built from the cleaned tokens plus spaces and commas (or is the literal
"unknown"). -/
theorem C10_output_has_no_bad_chars (name : Option (List Char)) :
    (format_name_for_filename name).all goodChar = true := by
  rw [List.all_eq_true]
  cases name with
  | none => exact good_unknown
  | some n =>
    by_cases hne : n = []
    · subst hne
      simp only [format_name_for_filename, if_pos rfl]
      exact good_unknown
    · simp only [format_name_for_filename, if_neg hne]
      by_cases hlen : (splitWS (cleanNamePipeline n)).length < 2
      · rw [if_pos hlen]
        exact fun c h => good_clean n c h
      · rw [if_neg hlen]
        split_ifs with h1 h2 h3 h4
        · exact good_append
            (good_append (good_token n 1) (good_cons goodChar_space (good_join n 2)))
            (good_cons goodChar_comma (good_cons goodChar_space (good_token n 0)))
        · exact good_append
            (good_append (good_token n _) (good_cons goodChar_space (good_token n _)))
            (good_cons goodChar_comma (good_cons goodChar_space (good_token n 0)))
        · exact good_append
            (good_append (good_token n _) (good_cons goodChar_space (good_token n _)))
            (good_cons goodChar_comma (good_cons goodChar_space (good_token n 0)))
        · exact good_append
            (good_append
              (good_append (good_token n _) (good_cons goodChar_space (good_token n _)))
              (good_cons goodChar_space (good_token n _)))
            (good_cons goodChar_comma (good_cons goodChar_space (good_token n 0)))
        · exact good_append (good_token n _)
            (good_cons goodChar_comma (good_cons goodChar_space (good_token n 0)))
        · exact good_append (good_token n _)
            (good_cons goodChar_comma (good_cons goodChar_space (good_token n 0)))

/-! ## Claim C8: strategy 1 on a well-formed span -/

theorem stripPrefixCL_eq_append (p r : List Char) :
    stripPrefixCL p (p ++ r) = some r := by
  induction p with
  | nil => rfl
  | cons a l ih => simp [stripPrefixCL, ih]

theorem stripPrefixCL_none {p s : List Char} (h : p.isPrefixOf s = false) :
    stripPrefixCL p s = none := by
  induction p generalizing s with
  | nil => simp [List.isPrefixOf] at h
  | cons a l ih =>
    cases s with
    | nil => rfl
    | cons b t =>
      rw [stripPrefixCL]
      by_cases hab : b = a
      · subst hab
        rw [if_pos rfl]
        apply ih
        simpa [List.isPrefixOf_cons₂] using h
      · rw [if_neg hab]

theorem searchMethod1_skip (pre s : List Char)
    (hpre : ∀ k, k < pre.length → certAnchor.isPrefixOf ((pre ++ s).drop k) = false) :
    searchMethod1 (pre ++ s) = searchMethod1 s := by
  induction pre with
  | nil => rfl
  | cons a pre ih =>
    have h0 := hpre 0 (by simp)
    rw [List.drop_zero] at h0
    have hnone : stripPrefixCL certAnchor (a :: (pre ++ s)) = none := by
      apply stripPrefixCL_none
      simpa using h0
    rw [List.cons_append, searchMethod1, hnone]
    exact ih (fun k hk => by simpa using hpre (k + 1) (by simpa using hk))

theorem takeWhile_all_append {p : Char → Bool} (xs ys : List Char)
    (h : ∀ c ∈ xs, p c = true) :
    (xs ++ ys).takeWhile p = xs ++ ys.takeWhile p := by
  induction xs with
  | nil => simp
  | cons a l ih =>
    rw [List.cons_append, List.takeWhile_cons, if_pos (h a (List.mem_cons_self a l)),
      ih (fun c hc => h c (List.mem_cons_of_mem _ hc)), List.cons_append]

theorem dropWhile_all_append {p : Char → Bool} (xs ys : List Char)
    (h : ∀ c ∈ xs, p c = true) :
    (xs ++ ys).dropWhile p = ys.dropWhile p := by
  induction xs with
  | nil => simp
  | cons a l ih =>
    rw [List.cons_append, List.dropWhile_cons, if_pos (h a (List.mem_cons_self a l)),
      ih (fun c hc => h c (List.mem_cons_of_mem _ hc))]

theorem wsThenLit_exists {lit s : List Char} (h : wsThenLit lit s = true) :
    ∃ w, 1 ≤ w ∧ lit.isPrefixOf (s.drop w) = true := by
  induction s with
  | nil => simp [wsThenLit] at h
  | cons c rest ih =>
    rw [wsThenLit, Bool.and_eq_true, Bool.or_eq_true] at h
    rcases h.2 with h2 | h2
    · exact ⟨1, le_refl 1, h2⟩
    · obtain ⟨w, hw1, hw2⟩ := ih h2
      exact ⟨w + 1, by omega, by simpa using hw2⟩

theorem containsSub_drop_false {pat l : List Char} (h : containsSub pat l = false) :
    ∀ k, pat.isPrefixOf (l.drop k) = false := by
  induction l with
  | nil =>
    intro k
    rw [containsSub] at h
    rw [List.drop_nil]
    cases pat with
    | nil => simp [List.isEmpty] at h
    | cons a t => rfl
  | cons c rest ih =>
    rw [containsSub, Bool.or_eq_false_iff] at h
    intro k
    cases k with
    | zero => exact h.1
    | succ m => simpa using ih h.2 m

theorem noT_lookahead {rest : List Char}
    (hnoT : containsSub thisAnchor (thisAnchor.drop 1 ++ rest) = false) :
    ∀ j, wsThenLit thisAnchor ((thisAnchor ++ rest).drop j) = false := by
  intro j
  by_contra hcon
  rw [Bool.not_eq_false] at hcon
  obtain ⟨w, hw1, hw2⟩ := wsThenLit_exists hcon
  rw [List.drop_drop] at hw2
  have hk : j + w = (j + w - 1) + 1 := by omega
  have hsplit : (thisAnchor ++ rest).drop (j + w) =
      (thisAnchor.drop 1 ++ rest).drop (j + w - 1) := by
    rw [hk, show thisAnchor ++ rest = 'T' :: (thisAnchor.drop 1 ++ rest) from rfl,
      List.drop_succ_cons]
    congr 1
  rw [hsplit, containsSub_drop_false hnoT (j + w - 1)] at hw2
  exact Bool.false_ne_true hw2

theorem tryCaptureFrom_finds (u : List Char) (target : Nat)
    (h1 : 1 ≤ target)
    (hhit : wsThenLit thisAnchor (u.drop target) = true)
    (hmiss : ∀ b, target < b → wsThenLit thisAnchor (u.drop b) = false) :
    ∀ n, target ≤ n → tryCaptureFrom u n = some (u.take target) := by
  intro n
  induction n with
  | zero => intro h; omega
  | succ m ih =>
    intro hle
    rw [tryCaptureFrom]
    by_cases he : m + 1 = target
    · rw [he, if_pos hhit]
    · have hgt : target < m + 1 := by omega
      rw [if_neg (by rw [hmiss _ hgt]; exact Bool.false_ne_true)]
      exact ih (by omega)

theorem thisAnchor_class : ∀ c ∈ thisAnchor, isClassChar c = true := by decide

theorem isClassChar_of_isWS {c : Char} (h : isWS c = true) : isClassChar c = true := by
  rw [isClassChar, h]
  simp

/-- The regex match at the anchor: greedy `\s+` takes exactly the whitespace
run `ws1`; the greedy capture backtracks to end one character before the
"This certificate" occurrence, capturing `mid ++ ws2`. -/
theorem tryMatch_span (ws1 mid ws2 rest : List Char) (w2 : Char)
    (hws1 : ∀ c ∈ ws1, isWS c = true) (hws1ne : ws1 ≠ [])
    (hmid : ∀ c ∈ mid, isClassChar c = true) (hmidne : mid ≠ [])
    (hhead : isWS (mid.headD 'a') = false)
    (hws2 : ∀ c ∈ ws2, isWS c = true) (hw2 : isWS w2 = true)
    (hnoT : containsSub thisAnchor (thisAnchor.drop 1 ++ rest) = false) :
    tryMatch (ws1 ++ (mid ++ (ws2 ++ (w2 :: (thisAnchor ++ rest))))) =
      some (mid ++ ws2) := by
  obtain ⟨mh, mid', rfl⟩ : ∃ a l, mid = a :: l := by
    cases mid with
    | nil => exact absurd rfl hmidne
    | cons a l => exact ⟨a, l, rfl⟩
  obtain ⟨wc, ws1', rfl⟩ : ∃ a l, ws1 = a :: l := by
    cases ws1 with
    | nil => exact absurd rfl hws1ne
    | cons a l => exact ⟨a, l, rfl⟩
  set u : List Char := (mh :: mid') ++ (ws2 ++ (w2 :: (thisAnchor ++ rest))) with hu
  have hmh : isWS mh = false := hhead
  have hwsrun : wsRunLen ((wc :: ws1') ++ u) = (wc :: ws1').length := by
    rw [wsRunLen, takeWhile_all_append _ _ hws1]
    have hu0 : u = mh :: (mid' ++ (ws2 ++ (w2 :: (thisAnchor ++ rest)))) := rfl
    rw [hu0, List.takeWhile_cons, if_neg (by rw [hmh]; exact Bool.false_ne_true)]
    simp
  have htarget1 : 1 ≤ ((mh :: mid') ++ ws2).length := by simp
  have hhit : wsThenLit thisAnchor (u.drop ((mh :: mid') ++ ws2).length) = true := by
    have hu3 : u = ((mh :: mid') ++ ws2) ++ (w2 :: (thisAnchor ++ rest)) := by
      rw [hu, List.append_assoc]
    rw [hu3, List.drop_left, wsThenLit]
    have hpref : thisAnchor.isPrefixOf (thisAnchor ++ rest) = true :=
      List.isPrefixOf_iff_prefix.mpr (List.prefix_append _ _)
    rw [hw2, hpref]
    simp
  have hmiss : ∀ b, ((mh :: mid') ++ ws2).length < b →
      wsThenLit thisAnchor (u.drop b) = false := by
    intro b hb
    have hu4 : u = (((mh :: mid') ++ ws2) ++ [w2]) ++ (thisAnchor ++ rest) := by
      rw [hu, List.append_assoc, List.append_assoc]
      rfl
    have hlen : (((mh :: mid') ++ ws2) ++ [w2]).length = ((mh :: mid') ++ ws2).length + 1 := by
      simp only [List.length_append, List.length_cons, List.length_nil]
    have hb2 : b = (((mh :: mid') ++ ws2) ++ [w2]).length +
        (b - (((mh :: mid') ++ ws2).length + 1)) := by
      rw [hlen]
      omega
    rw [hu4, hb2, List.drop_append]
    exact noT_lookahead hnoT _
  have htle : ((mh :: mid') ++ ws2).length ≤ classRunLen u := by
    have hu2 : u = (((mh :: mid') ++ (ws2 ++ (w2 :: thisAnchor)))) ++ rest := by
      rw [hu, List.append_assoc]
      simp [List.append_assoc]
    have hclass : ∀ c ∈ (mh :: mid') ++ (ws2 ++ (w2 :: thisAnchor)), isClassChar c = true := by
      intro c hc
      rcases List.mem_append.mp hc with h | h
      · exact hmid c h
      · rcases List.mem_append.mp h with h | h
        · exact isClassChar_of_isWS (hws2 c h)
        · rcases List.mem_cons.mp h with rfl | h
          · exact isClassChar_of_isWS hw2
          · exact thisAnchor_class c h
    rw [classRunLen, hu2, takeWhile_all_append _ _ hclass]
    simp [List.length_append]
  have hcap : tryCapture u = some ((mh :: mid') ++ ws2) := by
    rw [tryCapture,
      tryCaptureFrom_finds u (((mh :: mid') ++ ws2).length) htarget1 hhit hmiss _ htle]
    congr 1
    have hu3 : u = ((mh :: mid') ++ ws2) ++ (w2 :: (thisAnchor ++ rest)) := by
      rw [hu, List.append_assoc]
    rw [hu3, List.take_left]
  rw [tryMatch, hwsrun, List.length_cons, tryWsFrom]
  have hdrop : ((wc :: ws1') ++ u).drop (ws1'.length + 1) = u := by
    rw [show ws1'.length + 1 = (wc :: ws1').length from rfl, List.drop_left]
  rw [hdrop, hcap]

/-- Stripping a trimmed word followed by trailing whitespace gives the word. -/
theorem stripWS_trimmed_append (mid ws : List Char)
    (hmidne : mid ≠ [])
    (hh : isWS (mid.headD 'a') = false)
    (hl : isWS (mid.getLastD 'a') = false)
    (hws : ∀ c ∈ ws, isWS c = true) :
    stripWS (mid ++ ws) = mid := by
  obtain ⟨mh, mid', rfl⟩ : ∃ a l, mid = a :: l := by
    cases mid with
    | nil => exact absurd rfl hmidne
    | cons a l => exact ⟨a, l, rfl⟩
  unfold stripWS
  have h1 : ((mh :: mid') ++ ws).dropWhile isWS = (mh :: mid') ++ ws := by
    rw [List.cons_append, List.dropWhile_cons,
      if_neg (by rw [show isWS mh = false from hh]; exact Bool.false_ne_true)]
  rw [h1, List.reverse_append,
    dropWhile_all_append _ _ (fun c hc => hws c (List.mem_reverse.mp hc))]
  cases hr : (mh :: mid').reverse with
  | nil =>
    rw [List.reverse_eq_nil_iff] at hr
    exact absurd hr (List.cons_ne_nil _ _)
  | cons ml tl =>
    have hml : isWS ml = false := by
      have h2 : mh :: mid' = tl.reverse ++ [ml] := by
        rw [← List.reverse_reverse (mh :: mid'), hr, List.reverse_cons]
      rw [show ml = ((mh :: mid').getLastD 'a') from by rw [h2, List.getLastD_concat]]
      exact hl
    rw [List.dropWhile_cons, if_neg (by rw [hml]; exact Bool.false_ne_true)]
    have h3 : mh :: mid' = (ml :: tl).reverse := by
      have h4 := congrArg List.reverse hr
      simpa using h4
    exact h3.symm

/-- C8: on a page text containing a well-formed span -- the first occurrence
of "CERTIFICATE OF COMPLETION", whitespace, a trimmed middle of
letters/spaces/periods/hyphens, whitespace, then the only occurrence of
"This certificate" -- strategy 1 extracts exactly the middle text with
whitespace runs collapsed to single spaces and ends trimmed. -/
theorem C8_strategy1_well_formed_span
    (pre ws1 mid ws2 rest : List Char) (w2 : Char)
    (hpre : ∀ k, k < pre.length → certAnchor.isPrefixOf
      ((pre ++ (certAnchor ++ (ws1 ++ (mid ++ (ws2 ++ (w2 :: (thisAnchor ++ rest))))))).drop k)
        = false)
    (hws1 : ∀ c ∈ ws1, isWS c = true) (hws1ne : ws1 ≠ [])
    (hmid : ∀ c ∈ mid, isClassChar c = true) (hmidne : mid ≠ [])
    (hhead : isWS (mid.headD 'a') = false) (hlast : isWS (mid.getLastD 'a') = false)
    (hws2 : ∀ c ∈ ws2, isWS c = true) (hw2 : isWS w2 = true)
    (hnoT : containsSub thisAnchor (thisAnchor.drop 1 ++ rest) = false) :
    method1 (pre ++ (certAnchor ++ (ws1 ++ (mid ++ (ws2 ++ (w2 :: (thisAnchor ++ rest))))))) =
      some (stripWS (subWSruns mid)) := by
  have hsearch : searchMethod1
      (pre ++ (certAnchor ++ (ws1 ++ (mid ++ (ws2 ++ (w2 :: (thisAnchor ++ rest))))))) =
      some (mid ++ ws2) := by
    rw [searchMethod1_skip _ _ hpre]
    rw [show certAnchor ++ (ws1 ++ (mid ++ (ws2 ++ (w2 :: (thisAnchor ++ rest))))) =
      'C' :: ("ERTIFICATE OF COMPLETION".toList ++
        (ws1 ++ (mid ++ (ws2 ++ (w2 :: (thisAnchor ++ rest)))))) from rfl]
    rw [searchMethod1]
    have hstrip : stripPrefixCL certAnchor
        ('C' :: ("ERTIFICATE OF COMPLETION".toList ++
          (ws1 ++ (mid ++ (ws2 ++ (w2 :: (thisAnchor ++ rest))))))) =
        some (ws1 ++ (mid ++ (ws2 ++ (w2 :: (thisAnchor ++ rest))))) :=
      stripPrefixCL_eq_append certAnchor _
    simp only [hstrip]
    rw [tryMatch_span ws1 mid ws2 rest w2 hws1 hws1ne hmid hmidne hhead hws2 hw2 hnoT]
  simp only [method1, hsearch, ite_self]
  rw [stripWS_trimmed_append mid ws2 hmidne hhead hlast hws2]

/-- C8 witness: the span "CERTIFICATE OF COMPLETION Juan  Cruz This
certificate." yields the collapsed middle "Juan Cruz". -/
theorem C8_strategy1_witness :
    method1 "CERTIFICATE OF COMPLETION Juan  Cruz This certificate.".toList =
      some "Juan Cruz".toList := by
  have h := C8_strategy1_well_formed_span [] [' '] "Juan  Cruz".toList [] ['.'] ' '
    (by decide) (by decide) (by decide) (by decide) (by decide) (by decide) (by decide)
    (by decide) (by decide) (by decide)
  exact h.trans (by decide)

end PDFSplit
